import Mathlib

/-!
Shallow embedding of `strava_local_heatmap.py` (j-hiller/Strava-local-heatmap):
the slippy-map tile coordinate math, the FFT box-filter smoother, the density
accumulator with Python slice semantics, the threshold/normalize/colorize
steps, the overlay compositor, the tile-count admission gate, and the output
path handling.  Real-valued NumPy arithmetic is modelled over `ℝ` (or `ℚ`
where exact evaluation is wanted); 2-D arrays are modelled as functions from
index pairs to values.
-/

namespace StravaHeatmap

/-! ### Module-level parameters and constants (lines 36-41 of the source) -/

def MAX_TILE_COUNT : ℤ := 100

def OSM_TILE_SIZE : ℤ := 256

def OSM_MAX_ZOOM : ℤ := 19

/-! ### Zoom clamp (lines 166-167)

`if heatmap_zoom > OSM_MAX_ZOOM: heatmap_zoom = OSM_MAX_ZOOM`; the resulting
value is the zoom used by every later phase of `main`. -/

def effectiveZoom (z : ℤ) : ℤ :=
  if z > OSM_MAX_ZOOM then OSM_MAX_ZOOM else z

/-! ### Tile coordinate math (lines 45-69)

`np.radians`/`np.degrees` conversions and the two slippy-map conversions
`deg2num` / `num2deg`.  Python's `int()` truncates toward zero, which is
`truncInt` below.  `num2deg` accepts real tile coordinates because the CSV
export calls it at fractional positions. -/

noncomputable def radians (x : ℝ) : ℝ := x * Real.pi / 180

noncomputable def degrees (x : ℝ) : ℝ := x * 180 / Real.pi

noncomputable def truncInt (r : ℝ) : ℤ := if 0 ≤ r then ⌊r⌋ else ⌈r⌉

noncomputable def deg2num (lat_deg lon_deg : ℝ) (zoom : ℕ) : ℤ × ℤ :=
  let lat_rad := radians lat_deg
  let n : ℝ := 2 ^ zoom
  let xtile := truncInt ((lon_deg + 180) / 360 * n)
  let ytile := truncInt ((1 - Real.log (Real.tan lat_rad + 1 / Real.cos lat_rad) / Real.pi) / 2 * n)
  (xtile, ytile)

noncomputable def num2deg (xtile ytile : ℝ) (zoom : ℕ) : ℝ × ℝ :=
  let n : ℝ := 2 ^ zoom
  let lon_deg := xtile / n * 360 - 180
  let lat_rad := Real.arctan (Real.sinh (Real.pi * (1 - 2 * ytile / n)))
  (degrees lat_rad, lon_deg)

noncomputable def deg2xy (lat_deg lon_deg : ℝ) (zoom : ℕ) : ℝ × ℝ :=
  let lat_rad := radians lat_deg
  let n : ℝ := 2 ^ zoom
  let x := (lon_deg + 180) / 360 * n
  let y := (1 - Real.log (Real.tan lat_rad + 1 / Real.cos lat_rad) / Real.pi) / 2 * n
  (x, y)

/-! ### Tile-count gate and fetch sequence (lines 206-240)

`main` computes the bounding tile range of the cropped trackpoints, the
total `tile_count`, and quits with `'ERROR zoom value too high'` when
`tile_count > MAX_TILE_COUNT`, before the download loop runs.  The phase is
modelled as a function from the (nonempty) cropped point list to either that
fatal error or the ordered list of `(x, y)` tiles the download loop visits
(x outer loop, y inner loop); an `Except.error` result carries no fetch
list, i.e. no download is attempted and no tile file is written. -/

noncomputable def tileRange (p : ℝ × ℝ) (ps : List (ℝ × ℝ)) (z : ℕ) : ℤ × ℤ × ℤ × ℤ :=
  let lat_min := (ps.map Prod.fst).foldl min p.1
  let lat_max := (ps.map Prod.fst).foldl max p.1
  let lon_min := (ps.map Prod.snd).foldl min p.2
  let lon_max := (ps.map Prod.snd).foldl max p.2
  let t1 := deg2num lat_min lon_min z
  let t2 := deg2num lat_max lon_max z
  (t1.1, t2.1, t2.2, t1.2)

noncomputable def tileCount (p : ℝ × ℝ) (ps : List (ℝ × ℝ)) (z : ℕ) : ℤ :=
  let r := tileRange p ps z
  (r.2.1 - r.1 + 1) * (r.2.2.2 - r.2.2.1 + 1)

noncomputable def fetchSequence (p : ℝ × ℝ) (ps : List (ℝ × ℝ)) (z : ℕ) : List (ℤ × ℤ) :=
  let r := tileRange p ps z
  (List.range (r.2.1 - r.1 + 1).toNat).flatMap fun a =>
    (List.range (r.2.2.2 - r.2.2.1 + 1).toNat).map fun b => (r.1 + a, r.2.2.1 + b)

noncomputable def tilePhase (p : ℝ × ℝ) (ps : List (ℝ × ℝ)) (z : ℕ) :
    Except String (List (ℤ × ℤ)) :=
  if tileCount p ps z > MAX_TILE_COUNT then Except.error "ERROR zoom value too high"
  else Except.ok (fetchSequence p ps z)

/-! ### Density accumulator (lines 268-278)

`data = np.zeros(supertile_size[:2])` followed, for each trackpoint, by
`data[i-w_pixels:i+w_pixels+1, j-w_pixels:j+w_pixels+1] += 1`.  The array is
modelled as a total function on `ℤ × ℤ` whose support lives in
`[0,H) × [0,W)`.  NumPy basic slicing follows Python semantics: for an axis
of length `L`, a bound `a` resolves to `L + a` when `a < 0` (clamped below
at `0`) and is clamped above at `L` otherwise, and the slice covers
`resolve a ≤ k < resolve b`.  Values are `ℚ` so concrete instances evaluate
exactly. -/

def pyIdx (L a : ℤ) : ℤ := if a < 0 then max (L + a) 0 else min a L

def inSlice (L a b k : ℤ) : Prop := pyIdx L a ≤ k ∧ k < pyIdx L b

instance (L a b k : ℤ) : Decidable (inSlice L a b k) := by
  unfold inSlice; infer_instance

def zeroField : ℤ → ℤ → ℚ := fun _ _ => 0

def accumPoint (H W : ℤ) (w : ℕ) (i j : ℤ) (f : ℤ → ℤ → ℚ) : ℤ → ℤ → ℚ :=
  fun r c =>
    f r c +
      if inSlice H (i - w) (i + w + 1) r ∧ inSlice W (j - w) (j + w + 1) c then 1 else 0

/-! ### Ceiling threshold (lines 280-289)

`data[data > m] = m`, with `m` either the cumulative-distribution ceiling
`(1/5) * pixel_res * nr_activities` (where
`pixel_res = 156543.03 * cos(radians(mean latitude)) / 2 ** zoom`) or `1.0`
in uniform mode. -/

def threshCap {α : Type} [LinearOrder α] (m : α) (f : ℤ → ℤ → α) : ℤ → ℤ → α :=
  fun r c => if f r c > m then m else f r c

noncomputable def meanLat (pts : List (ℝ × ℝ)) : ℝ :=
  (pts.map Prod.fst).sum / pts.length

noncomputable def pixelRes (pts : List (ℝ × ℝ)) (zoom : ℕ) : ℝ :=
  156543.03 * Real.cos (radians (meanLat pts)) / 2 ^ zoom

noncomputable def mCdist (pts : List (ℝ × ℝ)) (nrActivities : ℕ) (zoom : ℕ) : ℝ :=
  (1 / 5) * pixelRes pts zoom * nrActivities

/-! ### Min-max normalization (lines 296-297)

`data = (data - data.min()) / (data.max() - data.min())` on the smoothed
density field, with no guard on the denominator.  The field is a nonempty
finite 2-D array; `fieldMin` / `fieldMax` are `data.min()` / `data.max()`.
NumPy float division by zero does not raise: it produces a non-finite value
(`0.0/0.0 = NaN`, `x/0.0 = ±Inf`), so scalar division is modelled by
`npDiv`, which returns `none` (a non-finite result) exactly when the
denominator is zero and the exact rational quotient otherwise.  In the
degenerate case `max = min`, every cell of the normalized field is
`0.0/0.0 = NaN`, i.e. `none`. -/

def npDiv (a b : ℚ) : Option ℚ := if b = 0 then none else some (a / b)

def fieldMin {h w : ℕ} (f : Fin (h + 1) → Fin (w + 1) → ℚ) : ℚ :=
  Finset.univ.inf' Finset.univ_nonempty
    (fun p : Fin (h + 1) × Fin (w + 1) => f p.1 p.2)

def fieldMax {h w : ℕ} (f : Fin (h + 1) → Fin (w + 1) → ℚ) : ℚ :=
  Finset.univ.sup' Finset.univ_nonempty
    (fun p : Fin (h + 1) × Fin (w + 1) => f p.1 p.2)

def normalizeField {h w : ℕ} (f : Fin (h + 1) → Fin (w + 1) → ℚ) :
    Fin (h + 1) → Fin (w + 1) → Option ℚ :=
  fun i j => npDiv (f i j - fieldMin f) (fieldMax f - fieldMin f)

/-! ### Overlay compositor (lines 307-310)

`supertile_overlay = np.zeros(supertile_size)` then, for each channel `c`,
`supertile_overlay[:,:,c] = (1.0 - data_color[:,:,c]) * supertile[:,:,c] + data_color[:,:,c]`.
Channel-indexed images are functions `Fin 3 → ℤ → ℤ → ℝ`; the loop is a fold
over the three channel assignments starting from the all-zero array. -/

noncomputable def overlayLoop (data_color supertile : Fin 3 → ℤ → ℤ → ℝ) :
    Fin 3 → ℤ → ℤ → ℝ :=
  (List.finRange 3).foldl
    (fun acc c =>
      Function.update acc c
        (fun r p => (1 - data_color c r p) * supertile c r p + data_color c r p))
    (fun _ _ _ => 0)

/-! ### Output path handling (lines 313-322)

`os.path.splitext` (the POSIX variant: the extension starts at the last dot
that lies after the last `'/'` and after at least one non-dot character of
the basename, so an all-dots-prefixed basename such as `'.png'` has no
extension), then
`if not os.path.splitext(heatmap_file)[1] == '.png': heatmap_file = os.path.splitext(heatmap_file)[0] + '.png'`
and `csv_file = os.path.splitext(heatmap_file)[0] + '.csv'`.  Paths are
lists of characters. -/

def lastIdx (c : Char) (p : List Char) : ℤ :=
  p.enum.foldl (fun acc kc => if kc.2 = c then (kc.1 : ℤ) else acc) (-1)

def splitext (p : List Char) : List Char × List Char :=
  let sepIndex := lastIdx '/' p
  let dotIndex := lastIdx '.' p
  if sepIndex < dotIndex then
    if p.enum.any (fun kc =>
        decide (sepIndex + 1 ≤ (kc.1 : ℤ) ∧ (kc.1 : ℤ) < dotIndex) && (kc.2 != '.')) then
      (p.take dotIndex.toNat, p.drop dotIndex.toNat)
    else (p, [])
  else (p, [])

def fixHeatmapExt (f : List Char) : List Char :=
  if (splitext f).2 = String.toList ".png" then f
  else (splitext f).1 ++ String.toList ".png"

def csvPath (f : List Char) : List Char :=
  (splitext (fixHeatmapExt f)).1 ++ String.toList ".csv"

/-! ### FFT box filter (lines 72-80)

`box_filter(image, w_box)` builds `box = np.ones((w_box, w_box)) / w_box**2`,
computes `image_fft = np.fft.rfft2(image)` and
`box_fft = np.fft.rfft2(box, s = image.shape)` (which zero-pads — or for
`w_box` larger than the shape, crops — the kernel into the image's shape with
its corner at index `(0,0)`), and returns `np.fft.irfft2(image_fft * box_fft)`.
On real arrays of even width the `rfft2`/`irfft2` pair computes exactly the
values of the full 2-D discrete Fourier transform and its normalized inverse
(`rfft2` merely stores the conjugate-symmetric half of the spectrum), so the
transforms are modelled as the full DFT pair over `ℂ` on index group
`ZMod n × ZMod m`, with the NumPy conventions: forward kernel
`exp (-2πi jk / n)`, inverse kernel `exp (2πi jk / n) / n`.  This model is
faithful only when the last-axis length `m` is even: `np.fft.irfft2` with no
`s` argument reconstructs a last axis of length `2*(⌊m/2⌋+1-1)`, so on an
odd-width input the source function returns an array of a different width
(and different values); the equivalence theorem therefore carries an
`Even m` hypothesis, which every call in the pipeline satisfies because
mosaic widths are multiples of 256.  `gdft`, `gidft` and the cyclic
convolution `gconv` are stated over any finite commutative ring equipped
with a character `E` so the convolution theorem is proved once and
instantiated at the product ring. -/

noncomputable def gdft {R : Type} [CommRing R] [Fintype R] (E : R → ℂ) (x : R → ℂ) : R → ℂ :=
  fun k => ∑ j, x j * E (-(j * k))

noncomputable def gidft {R : Type} [CommRing R] [Fintype R] (c : ℂ) (E : R → ℂ)
    (y : R → ℂ) : R → ℂ :=
  fun j => c⁻¹ * ∑ k, y k * E (j * k)

noncomputable def gconv {R : Type} [CommRing R] [Fintype R] (x y : R → ℂ) : R → ℂ :=
  fun a => ∑ b, x b * y (a - b)

noncomputable def zetaC (n : ℕ) : ℂ := Complex.exp (2 * Real.pi * Complex.I / n)

noncomputable def chrC (n : ℕ) (a : ZMod n) : ℂ := zetaC n ^ a.val

noncomputable def chr2 (n m : ℕ) (p : ZMod n × ZMod m) : ℂ := chrC n p.1 * chrC m p.2

noncomputable def boxKernel (n m w : ℕ) : ZMod n × ZMod m → ℂ :=
  fun p => if p.1.val < w ∧ p.2.val < w then (1 : ℂ) / w ^ 2 else 0

noncomputable def box_filter (n m : ℕ) [NeZero n] [NeZero m]
    (image : ZMod n × ZMod m → ℂ) (w_box : ℕ) :
    ZMod n × ZMod m → ℂ :=
  let image_fft := gdft (chr2 n m) image
  let box_fft := gdft (chr2 n m) (boxKernel n m w_box)
  gidft ((n : ℂ) * m) (chr2 n m) fun k => image_fft k * box_fft k

/-! ## Theorems -/

/-- Claim C5: for every requested zoom level strictly greater than 19, the
effective zoom used throughout the pipeline is exactly 19. -/
theorem effectiveZoom_clamp (z : ℤ) (h : z > 19) : effectiveZoom z = 19 := by
  simp only [effectiveZoom, OSM_MAX_ZOOM]
  rw [if_pos h]

/-- Witness for C5 at the concrete requested zoom 25. -/
theorem effectiveZoom_clamp_witness : (25 : ℤ) > 19 ∧ effectiveZoom 25 = 19 :=
  ⟨by norm_num, effectiveZoom_clamp 25 (by norm_num)⟩

/-- Claim C6: in uniform mode (threshold `m = 1`), accumulating the same
point twice into the zero-initialized density field and clamping every cell
to `m` yields exactly the same field as accumulating it once and clamping,
for every trackpoint pixel index and mosaic shape. -/
theorem threshold_idempotent (H W : ℤ) (w : ℕ) (i j : ℤ) :
    threshCap (1 : ℚ) (accumPoint H W w i j (accumPoint H W w i j zeroField)) =
      threshCap (1 : ℚ) (accumPoint H W w i j zeroField) := by
  funext r c
  simp only [threshCap, accumPoint, zeroField]
  by_cases hc : inSlice H (i - ↑w) (i + ↑w + 1) r ∧ inSlice W (j - ↑w) (j + ↑w + 1) c
  · rw [if_pos hc]
    norm_num
  · rw [if_neg hc]
    norm_num

/-- Claim C7: in cumulative-distribution mode the accumulator's ceiling
threshold is `m = (1/5) * (156543.03 * cos(mean latitude in radians) / 2^zoom)
* activityCount`, and thresholding replaces every cell by `min(cell, m)`. -/
theorem cdist_threshold_eq_min (pts : List (ℝ × ℝ)) (nrActivities : ℕ) (zoom : ℕ)
    (f : ℤ → ℤ → ℝ) (r c : ℤ) :
    threshCap (mCdist pts nrActivities zoom) f r c =
      min (f r c)
        ((1 / 5) * (156543.03 * Real.cos (radians (meanLat pts)) / 2 ^ zoom) * nrActivities) := by
  have hm : mCdist pts nrActivities zoom =
      (1 / 5) * (156543.03 * Real.cos (radians (meanLat pts)) / 2 ^ zoom) * nrActivities := rfl
  rw [← hm, threshCap]
  rcases lt_or_le (mCdist pts nrActivities zoom) (f r c) with h | h
  · rw [if_pos h, min_eq_right h.le]
  · rw [if_neg (not_lt.2 h), min_eq_left h]

/-- Claim C8: each pixel of the composited output equals
`(1 - overlay[c]) * base[c] + overlay[c]` per RGB channel `c`, the blend
weight being the overlay's own per-channel intensity. -/
theorem overlay_composite (data_color supertile : Fin 3 → ℤ → ℤ → ℝ) (c : Fin 3) (r p : ℤ) :
    overlayLoop data_color supertile c r p =
      (1 - data_color c r p) * supertile c r p + data_color c r p := by
  have h3 : List.finRange 3 = [0, 1, 2] := rfl
  fin_cases c <;>
    simp [overlayLoop, h3, Function.update]

lemma fieldMin_le {h w : ℕ} (f : Fin (h + 1) → Fin (w + 1) → ℚ) (i : Fin (h + 1))
    (j : Fin (w + 1)) : fieldMin f ≤ f i j :=
  Finset.inf'_le _ (Finset.mem_univ (i, j))

lemma le_fieldMax {h w : ℕ} (f : Fin (h + 1) → Fin (w + 1) → ℚ) (i : Fin (h + 1))
    (j : Fin (w + 1)) : f i j ≤ fieldMax f := by
  rw [fieldMax]
  exact Finset.le_sup' (fun p : Fin (h + 1) × Fin (w + 1) => f p.1 p.2) (Finset.mem_univ (i, j))

/-- Counterexample to C2 as stated: on the constant (degenerate) 1×1 field
`[5]`, line 297 computes `0.0 / 0.0` cell-wise, a NaN, not the zero the
claim asserts — the division by zero does propagate. -/
theorem normalize_degenerate_counterexample :
    fieldMax (fun _ _ => 5 : Fin 1 → Fin 1 → ℚ) =
        fieldMin (fun _ _ => 5 : Fin 1 → Fin 1 → ℚ) ∧
      normalizeField (fun _ _ => 5 : Fin 1 → Fin 1 → ℚ) 0 0 ≠ some 0 := by
  have heq : fieldMax (fun _ _ => 5 : Fin 1 → Fin 1 → ℚ) =
      fieldMin (fun _ _ => 5 : Fin 1 → Fin 1 → ℚ) := by decide
  refine ⟨heq, ?_⟩
  rw [normalizeField, npDiv, if_pos (by rw [heq, sub_self])]
  simp

/-- Claim C2, amended: when the field is non-degenerate (`max ≠ min`) the
min-max normalization produces finite values in `[0,1]` with at least one
cell exactly `0` and one exactly `1`; but in the degenerate case
`max = min` the unguarded division computes `0.0 / 0.0` in every cell, so
the whole field becomes NaN (a non-finite value, `none` in the model) —
not the all-zero field the spec describes. -/
theorem normalize_bounds {h w : ℕ} (f : Fin (h + 1) → Fin (w + 1) → ℚ) :
    (fieldMax f ≠ fieldMin f →
      (∀ i j, ∃ q, normalizeField f i j = some q ∧ 0 ≤ q ∧ q ≤ 1) ∧
        (∃ i j, normalizeField f i j = some 0) ∧
        (∃ i j, normalizeField f i j = some 1)) ∧
      (fieldMax f = fieldMin f → ∀ i j, normalizeField f i j = none) := by
  have hminmax : fieldMin f ≤ fieldMax f :=
    le_trans (fieldMin_le f 0 0) (le_fieldMax f 0 0)
  constructor
  · intro hne
    have hpos : 0 < fieldMax f - fieldMin f :=
      sub_pos.2 (lt_of_le_of_ne hminmax (Ne.symm hne))
    have hsome : ∀ i j, normalizeField f i j =
        some ((f i j - fieldMin f) / (fieldMax f - fieldMin f)) := by
      intro i j
      rw [normalizeField, npDiv, if_neg (ne_of_gt hpos)]
    refine ⟨fun i j => ⟨(f i j - fieldMin f) / (fieldMax f - fieldMin f), hsome i j, ?_, ?_⟩,
      ?_, ?_⟩
    · exact div_nonneg (sub_nonneg.2 (fieldMin_le f i j)) hpos.le
    · rw [div_le_one hpos]
      exact sub_le_sub_right (le_fieldMax f i j) _
    · obtain ⟨p, -, hp⟩ := Finset.exists_mem_eq_inf' (Finset.univ_nonempty)
        (fun p : Fin (h + 1) × Fin (w + 1) => f p.1 p.2)
      refine ⟨p.1, p.2, ?_⟩
      rw [hsome p.1 p.2, fieldMin, hp]
      simp
    · obtain ⟨p, -, hp⟩ := Finset.exists_mem_eq_sup' (Finset.univ_nonempty)
        (fun p : Fin (h + 1) × Fin (w + 1) => f p.1 p.2)
      refine ⟨p.1, p.2, ?_⟩
      rw [hsome p.1 p.2]
      have hfp : f p.1 p.2 = fieldMax f := by rw [fieldMax, hp]
      rw [hfp, div_self (ne_of_gt hpos)]
  · intro heq i j
    rw [normalizeField, npDiv, if_pos (by rw [heq, sub_self])]

/-- Witness for C2\'s amended theorem on the concrete non-degenerate 1×2
field `[0, 2]`. -/
theorem normalize_bounds_witness :
    (fieldMax (fun _ j => if j = 0 then 0 else 2 : Fin 1 → Fin 2 → ℚ) ≠
        fieldMin (fun _ j => if j = 0 then 0 else 2 : Fin 1 → Fin 2 → ℚ)) ∧
      ((∀ i j, ∃ q,
          normalizeField (fun _ j => if j = 0 then 0 else 2 : Fin 1 → Fin 2 → ℚ) i j = some q ∧
            0 ≤ q ∧ q ≤ 1) ∧
        (∃ i j,
          normalizeField (fun _ j => if j = 0 then 0 else 2 : Fin 1 → Fin 2 → ℚ) i j = some 0) ∧
        (∃ i j,
          normalizeField (fun _ j => if j = 0 then 0 else 2 : Fin 1 → Fin 2 → ℚ) i j = some 1)) :=
  ⟨by decide, (normalize_bounds _).1 (by decide)⟩

/-- Counterexample to C3 as stated: on a 4×4 mosaic with `paddingPixels = 1`,
the trackpoint at local pixel `(0, 2)` has the in-bounds cell `(0, 2)` in the
centre of its neighborhood, yet the accumulator does not increment it: the
row slice `data[-1:2]` resolves Python-style to start index `3`, an empty
range, so the point is dropped entirely instead of clipped. -/
theorem accum_clip_counterexample :
    ¬ ∀ (H W : ℤ) (w : ℕ) (i j : ℤ) (f : ℤ → ℤ → ℚ) (r c : ℤ),
        0 ≤ r → r < H → 0 ≤ c → c < W → |r - i| ≤ w → |c - j| ≤ w →
        accumPoint H W w i j f r c = f r c + 1 := by
  intro hall
  have h := hall 4 4 1 0 2 zeroField 0 2 (by norm_num) (by norm_num) (by norm_num)
    (by norm_num) (by norm_num) (by norm_num)
  rw [accumPoint] at h
  rw [if_neg ?hcond] at h
  · exact absurd h (by norm_num [zeroField])
  case hcond =>
    rintro ⟨⟨h1, h2⟩, -⟩
    rw [show ((0 : ℤ) - (1 : ℕ)) = -1 by norm_num] at h1
    rw [show pyIdx 4 (-1) = 3 by rfl] at h1
    omega

/-- Claim C3, amended: the accumulator is total (never crashes) and follows
Python slice semantics.  When the neighborhood's start indices are
non-negative, a cell is incremented exactly when it lies in the neighborhood
clipped at the bottom/right mosaic borders; but when the window straddles
the top border (`i - w < 0 ≤ i + w + 1`) on a mosaic at least as tall as the
window, or the left border (`j - w < 0 ≤ j + w + 1`) on a mosaic at least as
wide as the window, the negative start index wraps to the end of the axis
and the resulting range is empty, so nothing at all is incremented —
out-of-range neighborhoods on the top/left side are dropped, not clipped. -/
theorem accum_slice_semantics (H W : ℤ) (w : ℕ) (i j : ℤ) (f : ℤ → ℤ → ℚ) (r c : ℤ) :
    (0 ≤ i - w → 0 ≤ j - w →
      (accumPoint H W w i j f r c = f r c + 1 ↔
        i - w ≤ r ∧ r < i + w + 1 ∧ r < H ∧ j - w ≤ c ∧ c < j + w + 1 ∧ c < W)) ∧
      (i - w < 0 → 0 ≤ i + w + 1 → 2 * w + 1 ≤ H →
        accumPoint H W w i j f r c = f r c) ∧
      (j - w < 0 → 0 ≤ j + w + 1 → 2 * w + 1 ≤ W →
        accumPoint H W w i j f r c = f r c) := by
  refine ⟨?_, ?_, ?_⟩
  · intro hi hj
    rw [accumPoint]
    have hi1 : ¬ (i - (w : ℤ) < 0) := not_lt.2 hi
    have hj1 : ¬ (j - (w : ℤ) < 0) := not_lt.2 hj
    have hi2 : ¬ (i + (w : ℤ) + 1 < 0) := by omega
    have hj2 : ¬ (j + (w : ℤ) + 1 < 0) := by omega
    simp only [inSlice, pyIdx, if_neg hi1, if_neg hj1, if_neg hi2, if_neg hj2]
    constructor
    · intro h
      by_cases hc : (min (i - (w : ℤ)) H ≤ r ∧ r < min (i + w + 1) H) ∧
          min (j - (w : ℤ)) W ≤ c ∧ c < min (j + w + 1) W
      · simp only [lt_min_iff, min_le_iff] at hc
        omega
      · rw [if_neg hc] at h
        exact absurd h (by norm_num)
    · intro h
      rw [if_pos ?side]
      case side =>
        simp only [lt_min_iff, min_le_iff]
        omega
  · intro h1 h2 h3
    rw [accumPoint, if_neg ?empt, add_zero]
    case empt =>
      rintro ⟨⟨ha, hb⟩, -⟩
      revert ha hb
      simp only [pyIdx, if_pos h1, if_neg (not_lt.2 h2)]
      intro ha hb
      rcases le_or_lt (i + (w : ℤ) + 1) H with hh | hh
      · rw [min_eq_left hh] at hb
        have : max (H + (i - (w : ℤ))) 0 = H + (i - w) := by omega
        rw [this] at ha
        omega
      · rw [min_eq_right hh.le] at hb
        have : max (H + (i - (w : ℤ))) 0 = H + (i - w) := by omega
        rw [this] at ha
        omega
  · intro h1 h2 h3
    rw [accumPoint, if_neg ?emptc, add_zero]
    case emptc =>
      rintro ⟨-, hc, hd⟩
      revert hc hd
      simp only [pyIdx, if_pos h1, if_neg (not_lt.2 h2)]
      intro hc hd
      rcases le_or_lt (j + (w : ℤ) + 1) W with hh | hh
      · rw [min_eq_left hh] at hd
        have : max (W + (j - (w : ℤ))) 0 = W + (j - w) := by omega
        rw [this] at hc
        omega
      · rw [min_eq_right hh.le] at hd
        have : max (W + (j - (w : ℤ))) 0 = W + (j - w) := by omega
        rw [this] at hc
        omega

/-- Witness for C3's amended theorem at an interior point: mosaic 10×10,
`w = 1`, point pixel `(5, 5)`, cell `(4, 5)` inside the clipped window. -/
theorem accum_slice_semantics_witness :
    ((0 : ℤ) ≤ 5 - (1 : ℕ) ∧ (0 : ℤ) ≤ 5 - (1 : ℕ)) ∧
      (accumPoint 10 10 1 5 5 zeroField 4 5 = zeroField 4 5 + 1 ↔
        (5 : ℤ) - (1 : ℕ) ≤ 4 ∧ (4 : ℤ) < 5 + (1 : ℕ) + 1 ∧ (4 : ℤ) < 10 ∧
          (5 : ℤ) - (1 : ℕ) ≤ 5 ∧ (5 : ℤ) < 5 + (1 : ℕ) + 1 ∧ (5 : ℤ) < 10) :=
  ⟨⟨by norm_num, by norm_num⟩,
    (accum_slice_semantics 10 10 1 5 5 zeroField 4 5).1 (by norm_num) (by norm_num)⟩

lemma splitext_append (p : List Char) : (splitext p).1 ++ (splitext p).2 = p := by
  rw [splitext]
  split_ifs <;> simp

/-- Counterexample to C10 as stated: the path `".png"` already ends in
`".png"`, but `os.path.splitext` treats the all-dot-prefixed basename as
extensionless, so the code appends another `".png"` instead of leaving the
path unchanged. -/
theorem output_path_counterexample :
    (∃ s, String.toList ".png" = s ++ String.toList ".png") ∧
      fixHeatmapExt (String.toList ".png") ≠ String.toList ".png" := by
  exact ⟨⟨[], rfl⟩, by decide⟩

/-- Claim C10, amended: the final raster path always ends in `".png"`; a path
whose `splitext` extension is exactly `".png"` is used unchanged, otherwise
`".png"` is appended to the `splitext` root (note a basename consisting of
leading dots, such as `".png"` itself, counts as having no extension and so
gets `".png"` appended); the optional CSV is the final path's `splitext`
root with `".csv"` appended. -/
theorem output_path_spec (f : List Char) :
    (∃ s, fixHeatmapExt f = s ++ String.toList ".png") ∧
      ((splitext f).2 = String.toList ".png" → fixHeatmapExt f = f) ∧
      ((splitext f).2 ≠ String.toList ".png" →
        fixHeatmapExt f = (splitext f).1 ++ String.toList ".png") ∧
      csvPath f = (splitext (fixHeatmapExt f)).1 ++ String.toList ".csv" := by
  refine ⟨?_, ?_, ?_, rfl⟩
  · by_cases hext : (splitext f).2 = String.toList ".png"
    · refine ⟨(splitext f).1, ?_⟩
      rw [fixHeatmapExt, if_pos hext]
      rw [← hext]
      exact (splitext_append f).symm
    · exact ⟨(splitext f).1, by rw [fixHeatmapExt, if_neg hext]⟩
  · intro hext
    rw [fixHeatmapExt, if_pos hext]
  · intro hext
    rw [fixHeatmapExt, if_neg hext]

/-- Witness for C10's amended theorem on the concrete path `"map.jpg"`,
whose extension is not `".png"`. -/
theorem output_path_spec_witness :
    (splitext (String.toList "map.jpg")).2 ≠ String.toList ".png" ∧
      fixHeatmapExt (String.toList "map.jpg") =
        (splitext (String.toList "map.jpg")).1 ++ String.toList ".png" :=
  ⟨by decide, (output_path_spec (String.toList "map.jpg")).2.2.1 (by decide)⟩

/-- Claim C4: when the bounding tile rectangle of the cropped trackpoints
contains more than `MAX_TILE_COUNT` tiles, the orchestrator fails with the
fatal `'ERROR zoom value too high'` before issuing any tile fetch: the
result carries no fetch sequence, so no download is attempted and no tile
file is written. -/
theorem tile_gate (p : ℝ × ℝ) (ps : List (ℝ × ℝ)) (z : ℕ)
    (h : tileCount p ps z > MAX_TILE_COUNT) :
    tilePhase p ps z = Except.error "ERROR zoom value too high" := by
  rw [tilePhase, if_pos h]

lemma deg2num_lat0_lonNeg170 : deg2num 0 (-170) 9 = (14, 256) := by
  rw [deg2num]
  have h0 : radians 0 = 0 := by rw [radians]; ring
  rw [h0, Real.tan_zero, Real.cos_zero]
  have hx : truncInt (((-170 : ℝ) + 180) / 360 * 2 ^ 9) = 14 := by
    rw [truncInt, if_pos (by norm_num)]
    rw [Int.floor_eq_iff]
    norm_num
  have hy : truncInt ((1 - Real.log (0 + 1 / 1) / Real.pi) / 2 * 2 ^ 9) = 256 := by
    norm_num [truncInt]
  rw [hx, hy]

lemma deg2num_lat0_lon170 : deg2num 0 170 9 = (497, 256) := by
  rw [deg2num]
  have h0 : radians 0 = 0 := by rw [radians]; ring
  rw [h0, Real.tan_zero, Real.cos_zero]
  have hx : truncInt (((170 : ℝ) + 180) / 360 * 2 ^ 9) = 497 := by
    rw [truncInt, if_pos (by norm_num)]
    rw [Int.floor_eq_iff]
    norm_num
  have hy : truncInt ((1 - Real.log (0 + 1 / 1) / Real.pi) / 2 * 2 ^ 9) = 256 := by
    norm_num [truncInt]
  rw [hx, hy]

lemma tileCount_equator_span : tileCount (0, -170) [((0 : ℝ), (170 : ℝ))] 9 = 484 := by
  have hr : tileRange (0, -170) [((0 : ℝ), (170 : ℝ))] 9 = (14, 497, 256, 256) := by
    rw [tileRange]
    simp only [List.map_cons, List.map_nil, List.foldl_cons, List.foldl_nil]
    norm_num [deg2num_lat0_lonNeg170, deg2num_lat0_lon170]
  rw [tileCount, hr]
  norm_num

/-- Witness for C4: two equatorial points 340 degrees of longitude apart at
zoom 9 span 484 tiles, beyond the ceiling of 100; the phase returns the
fatal error and no fetch sequence. -/
theorem tile_gate_witness :
    tileCount (0, -170) [((0 : ℝ), (170 : ℝ))] 9 > MAX_TILE_COUNT ∧
      tilePhase (0, -170) [((0 : ℝ), (170 : ℝ))] 9 =
        Except.error "ERROR zoom value too high" :=
  ⟨by rw [tileCount_equator_span]; norm_num [MAX_TILE_COUNT],
    tile_gate _ _ _ (by rw [tileCount_equator_span]; norm_num [MAX_TILE_COUNT])⟩

lemma exp_pi_gt : (23.03 : ℝ) < Real.exp Real.pi := by
  have h3 : Real.exp 3 = Real.exp 1 ^ 3 := by
    rw [← Real.exp_nat_mul]
    norm_num
  have he1 : (2.7182818283 : ℝ) ^ 3 < Real.exp 1 ^ 3 := by
    apply pow_lt_pow_left₀ Real.exp_one_gt_d9 (by norm_num) (by norm_num)
  have hsplit : Real.exp Real.pi = Real.exp 3 * Real.exp (Real.pi - 3) := by
    rw [← Real.exp_add]
    norm_num
  have hrem : (1 + (Real.pi - 3) / 2) ^ 2 ≤ Real.exp (Real.pi - 3) := by
    have hhalf : Real.exp (Real.pi - 3) = Real.exp ((Real.pi - 3) / 2) ^ 2 := by
      rw [← Real.exp_nat_mul]
      ring_nf
    rw [hhalf]
    have h1 : 1 + (Real.pi - 3) / 2 ≤ Real.exp ((Real.pi - 3) / 2) := by
      have := Real.add_one_le_exp ((Real.pi - 3) / 2)
      linarith
    have h0 : (0 : ℝ) ≤ 1 + (Real.pi - 3) / 2 := by
      have := Real.pi_gt_three
      linarith
    exact pow_le_pow_left₀ h0 h1 2
  have hπ : (3.141592 : ℝ) < Real.pi := Real.pi_gt_d6
  have hq : ((1.070796 : ℝ)) ^ 2 < (1 + (Real.pi - 3) / 2) ^ 2 := by
    apply pow_lt_pow_left₀ (by linarith) (by norm_num) (by norm_num)
  have hbig : (2.7182818283 : ℝ) ^ 3 * (1.070796 : ℝ) ^ 2 < Real.exp 3 * Real.exp (Real.pi - 3) := by
    apply mul_lt_mul' ?h1 ?h2 ?h3 ?h4
    case h1 => rw [h3]; exact le_of_lt he1
    case h2 => exact lt_of_lt_of_le hq hrem
    case h3 => positivity
    case h4 => rw [h3]; positivity
  rw [hsplit]
  refine lt_of_le_of_lt ?_ hbig
  norm_num

lemma sin_pi_div_36_gt : (0.0871 : ℝ) < Real.sin (Real.pi / 36) := by
  have hπl : (3.141592 : ℝ) < Real.pi := Real.pi_gt_d6
  have hπu : Real.pi < 3.141593 := Real.pi_lt_d6
  have hx1 : (3.141592 : ℝ) / 36 < Real.pi / 36 := by linarith
  have hmono : Real.sin (3.141592 / 36) ≤ Real.sin (Real.pi / 36) := by
    apply Real.strictMonoOn_sin.monotoneOn ?m1 ?m2 (le_of_lt hx1)
    case m1 =>
      constructor
      · linarith
      · linarith
    case m2 =>
      have hp := Real.pi_pos
      constructor
      · linarith
      · linarith
  have hcube : (3.141592 : ℝ) / 36 - ((3.141592 : ℝ) / 36) ^ 3 / 4 < Real.sin (3.141592 / 36) :=
    Real.sin_gt_sub_cube (by norm_num) (by norm_num)
  refine lt_of_lt_of_le (lt_of_le_of_lt ?_ hcube) hmono
  norm_num


lemma merc_arg_eq (φ : ℝ) (hcos : Real.cos φ ≠ 0) :
    Real.tan φ + 1 / Real.cos φ = (1 + Real.sin φ) / Real.cos φ := by
  rw [Real.tan_eq_sin_div_cos]
  field_simp
  ring

lemma merc_arg_pos (φ : ℝ) (h1 : -(Real.pi / 2) < φ) (h2 : φ < Real.pi / 2) :
    0 < Real.tan φ + 1 / Real.cos φ := by
  have hcos : 0 < Real.cos φ := Real.cos_pos_of_mem_Ioo ⟨h1, h2⟩
  have hsin : -1 < Real.sin φ := by
    have := Real.neg_one_le_sin φ
    rcases eq_or_lt_of_le this with h | h
    · exfalso
      have : Real.cos φ = 0 := by
        have h2 := Real.sin_sq_add_cos_sq φ
        nlinarith [Real.sin_sq_add_cos_sq φ]
      linarith
    · exact h
  rw [merc_arg_eq φ (ne_of_gt hcos)]
  exact div_pos (by linarith) hcos

lemma merc_inverse (φ : ℝ) (h1 : -(Real.pi / 2) < φ) (h2 : φ < Real.pi / 2) :
    Real.arctan (Real.sinh (Real.log (Real.tan φ + 1 / Real.cos φ))) = φ := by
  have hcos : 0 < Real.cos φ := Real.cos_pos_of_mem_Ioo ⟨h1, h2⟩
  have hu : 0 < Real.tan φ + 1 / Real.cos φ := merc_arg_pos φ h1 h2
  have hinv : (Real.tan φ + 1 / Real.cos φ)⁻¹ = 1 / Real.cos φ - Real.tan φ := by
    apply inv_eq_of_mul_eq_one_right
    rw [Real.tan_eq_sin_div_cos]
    field_simp
    nlinarith [Real.sin_sq_add_cos_sq φ]
  rw [Real.sinh_log hu, hinv]
  have : (Real.tan φ + 1 / Real.cos φ - (1 / Real.cos φ - Real.tan φ)) / 2 = Real.tan φ := by
    ring
  rw [this, Real.arctan_tan h1 h2]


lemma cos_ge_of_abs_le (φ : ℝ) (h : |φ| ≤ 17 * Real.pi / 36) :
    Real.sin (Real.pi / 36) ≤ Real.cos φ := by
  have hp := Real.pi_pos
  have h1 : Real.cos (17 * Real.pi / 36) ≤ Real.cos |φ| := by
    apply Real.cos_le_cos_of_nonneg_of_le_pi (abs_nonneg φ) (by linarith) h
  rw [Real.cos_abs] at h1
  refine le_trans ?_ h1
  rw [show (17 : ℝ) * Real.pi / 36 = Real.pi / 2 - Real.pi / 36 by ring]
  rw [Real.cos_pi_div_two_sub]

lemma merc_log_le_pi (φ : ℝ) (h : |φ| ≤ 17 * Real.pi / 36) :
    Real.log (Real.tan φ + 1 / Real.cos φ) ≤ Real.pi := by
  have hp := Real.pi_pos
  have hπl : (3.141592 : ℝ) < Real.pi := Real.pi_gt_d6
  have h1 : -(Real.pi / 2) < φ := by
    have := abs_le.1 h
    rcases this with ⟨hl, -⟩
    nlinarith
  have h2 : φ < Real.pi / 2 := by
    have := abs_le.1 h
    rcases this with ⟨-, hr⟩
    nlinarith
  have hcos : 0 < Real.cos φ := Real.cos_pos_of_mem_Ioo ⟨h1, h2⟩
  have hu : 0 < Real.tan φ + 1 / Real.cos φ := merc_arg_pos φ h1 h2
  rw [Real.log_le_iff_le_exp hu]
  have hcosb : (0.0871 : ℝ) < Real.cos φ :=
    lt_of_lt_of_le sin_pi_div_36_gt (cos_ge_of_abs_le φ h)
  have hbound : Real.tan φ + 1 / Real.cos φ ≤ 2 / (0.0871 : ℝ) := by
    rw [merc_arg_eq φ (ne_of_gt hcos)]
    apply div_le_div₀ (by norm_num) ?h1 (by norm_num) (le_of_lt hcosb)
    case h1 =>
      have := Real.sin_le_one φ
      linarith
  refine le_trans hbound (le_trans (by norm_num) (le_of_lt exp_pi_gt))


lemma abs_sub_truncInt_le (r : ℝ) : |r - truncInt r| ≤ 1 := by
  rw [truncInt]
  split_ifs with h
  · rw [abs_le]
    have h1 := Int.floor_le r
    have h2 := Int.lt_floor_add_one r
    constructor <;> linarith
  · rw [abs_le]
    have h1 := Int.le_ceil r
    have h2 := Int.ceil_lt_add_one r
    constructor <;> linarith

lemma latFormula_le (z : ℕ) {y1 y2 : ℝ} (h : y1 ≤ y2) :
    degrees (Real.arctan (Real.sinh (Real.pi * (1 - 2 * y2 / 2 ^ z)))) ≤
      degrees (Real.arctan (Real.sinh (Real.pi * (1 - 2 * y1 / 2 ^ z)))) := by
  have hp := Real.pi_pos
  have hn : (0 : ℝ) < 2 ^ z := by positivity
  have harg : Real.pi * (1 - 2 * y2 / 2 ^ z) ≤ Real.pi * (1 - 2 * y1 / 2 ^ z) := by
    apply mul_le_mul_of_nonneg_left ?_ hp.le
    have hd : 2 * y1 / 2 ^ z ≤ 2 * y2 / 2 ^ z := by
      gcongr
    linarith
  have hsinh := Real.sinh_le_sinh.2 harg
  have harctan := Real.arctan_strictMono.monotone hsinh
  rw [degrees, degrees]
  gcongr


lemma deg2num_fst (lat lon : ℝ) (z : ℕ) :
    (deg2num lat lon z).1 = truncInt ((lon + 180) / 360 * 2 ^ z) := rfl

lemma deg2num_snd (lat lon : ℝ) (z : ℕ) :
    (deg2num lat lon z).2 =
      truncInt ((1 - Real.log (Real.tan (radians lat) + 1 / Real.cos (radians lat)) / Real.pi) /
        2 * 2 ^ z) := rfl

lemma num2deg_fst (x y : ℝ) (z : ℕ) :
    (num2deg x y z).1 = degrees (Real.arctan (Real.sinh (Real.pi * (1 - 2 * y / 2 ^ z)))) := rfl

lemma num2deg_snd (x y : ℝ) (z : ℕ) : (num2deg x y z).2 = x / 2 ^ z * 360 - 180 := rfl

/-- Claim C1: for `lat` strictly between -85 and 85 degrees and any `lon`
and zoom `z`, `num2deg` applied to the tile indices `deg2num(lat, lon, z)`
recovers the point within one tile's angular resolution: the longitude
round-trip error is at most `360 / 2^z` degrees and the latitude error at
most the angular height of the returned tile row (the latitude of that
row's top edge minus the latitude of the next row's top edge). -/
theorem deg2num_num2deg_roundtrip (lat lon : ℝ) (z : ℕ) (hlat1 : -85 < lat) (hlat2 : lat < 85) :
    |lon - (num2deg ((deg2num lat lon z).1 : ℝ) ((deg2num lat lon z).2 : ℝ) z).2| ≤
        360 / 2 ^ z ∧
      |lat - (num2deg ((deg2num lat lon z).1 : ℝ) ((deg2num lat lon z).2 : ℝ) z).1| ≤
        (num2deg ((deg2num lat lon z).1 : ℝ) ((deg2num lat lon z).2 : ℝ) z).1 -
          (num2deg ((deg2num lat lon z).1 : ℝ) (((deg2num lat lon z).2 : ℝ) + 1) z).1 := by
  have hn : (0 : ℝ) < 2 ^ z := by positivity
  have hπ := Real.pi_pos
  have hπ0 : Real.pi ≠ 0 := Real.pi_ne_zero
  constructor
  · -- longitude part
    rw [num2deg_snd, deg2num_fst]
    have hrw : lon - ((truncInt ((lon + 180) / 360 * 2 ^ z) : ℝ) / 2 ^ z * 360 - 180) =
        ((lon + 180) / 360 * 2 ^ z - (truncInt ((lon + 180) / 360 * 2 ^ z) : ℝ)) *
          (360 / 2 ^ z) := by
      field_simp
      ring
    rw [hrw, abs_mul, abs_of_pos (by positivity : (0:ℝ) < 360 / 2 ^ z)]
    exact mul_le_of_le_one_left (by positivity) (abs_sub_truncInt_le _)
  · -- latitude part
    rw [num2deg_fst, num2deg_fst, deg2num_snd]
    have hφ1 : -(Real.pi / 2) < radians lat := by
      rw [radians]
      nlinarith
    have hφ2 : radians lat < Real.pi / 2 := by
      rw [radians]
      nlinarith
    have hφ36 : |radians lat| ≤ 17 * Real.pi / 36 := by
      rw [radians, abs_div, abs_mul, abs_of_pos hπ]
      rw [abs_of_pos (by norm_num : (0:ℝ) < 180)]
      have hla : |lat| ≤ 85 := abs_le.2 ⟨by linarith, by linarith⟩
      rw [div_le_iff₀ (by norm_num : (0:ℝ) < 180)]
      nlinarith [abs_nonneg lat]
    have hg := merc_log_le_pi (radians lat) hφ36
    set g := Real.log (Real.tan (radians lat) + 1 / Real.cos (radians lat)) with hgdef
    set Y := (1 - g / Real.pi) / 2 * 2 ^ z with hYdef
    have hY0 : 0 ≤ Y := by
      rw [hYdef]
      have : g / Real.pi ≤ 1 := (div_le_one hπ).2 hg
      have h1 : 0 ≤ (1 - g / Real.pi) / 2 := by linarith
      positivity
    rw [truncInt, if_pos hY0]
    have harg : Real.pi * (1 - 2 * Y / 2 ^ z) = g := by
      rw [hYdef]
      field_simp
      ring
    have hlatY : degrees (Real.arctan (Real.sinh (Real.pi * (1 - 2 * Y / 2 ^ z)))) = lat := by
      rw [harg, hgdef, merc_inverse (radians lat) hφ1 hφ2, degrees, radians]
      field_simp
    have hfl1 : ((⌊Y⌋ : ℝ)) ≤ Y := Int.floor_le Y
    have hfl2 : Y ≤ (⌊Y⌋ : ℝ) + 1 := (Int.lt_floor_add_one Y).le
    have hA : lat ≤ degrees (Real.arctan (Real.sinh (Real.pi * (1 - 2 * (⌊Y⌋ : ℝ) / 2 ^ z)))) := by
      rw [← hlatY]
      exact latFormula_le z hfl1
    have hB : degrees (Real.arctan (Real.sinh (Real.pi * (1 - 2 * ((⌊Y⌋ : ℝ) + 1) / 2 ^ z)))) ≤
        lat := by
      rw [← hlatY]
      exact latFormula_le z hfl2
    rw [abs_sub_comm, abs_of_nonneg (by linarith)]
    linarith


/-- Witness for C1 at the concrete point `(0, 0)` and zoom 0. -/
theorem deg2num_num2deg_roundtrip_witness :
    ((-85 : ℝ) < 0 ∧ (0 : ℝ) < 85) ∧
      (|(0 : ℝ) - (num2deg ((deg2num 0 0 0).1 : ℝ) ((deg2num 0 0 0).2 : ℝ) 0).2| ≤
          360 / 2 ^ 0 ∧
        |(0 : ℝ) - (num2deg ((deg2num 0 0 0).1 : ℝ) ((deg2num 0 0 0).2 : ℝ) 0).1| ≤
          (num2deg ((deg2num 0 0 0).1 : ℝ) ((deg2num 0 0 0).2 : ℝ) 0).1 -
            (num2deg ((deg2num 0 0 0).1 : ℝ) (((deg2num 0 0 0).2 : ℝ) + 1) 0).1) :=
  ⟨⟨by norm_num, by norm_num⟩, deg2num_num2deg_roundtrip 0 0 0 (by norm_num) (by norm_num)⟩


lemma zetaC_isPrimitiveRoot (n : ℕ) [NeZero n] : IsPrimitiveRoot (zetaC n) n :=
  Complex.isPrimitiveRoot_exp n (NeZero.ne n)

lemma zetaC_pow_self (n : ℕ) [NeZero n] : zetaC n ^ n = 1 :=
  (zetaC_isPrimitiveRoot n).pow_eq_one

lemma zetaC_pow_mod (n : ℕ) [NeZero n] (x : ℕ) : zetaC n ^ (x % n) = zetaC n ^ x := by
  conv_rhs => rw [← Nat.mod_add_div x n]
  rw [pow_add, pow_mul, zetaC_pow_self, one_pow, mul_one]

lemma chrC_add (n : ℕ) [NeZero n] (a b : ZMod n) : chrC n (a + b) = chrC n a * chrC n b := by
  rw [chrC, chrC, chrC, ZMod.val_add, zetaC_pow_mod, pow_add]

lemma chrC_mul_eq_pow (n : ℕ) [NeZero n] (t k : ZMod n) :
    chrC n (t * k) = chrC n t ^ k.val := by
  rw [chrC, chrC, ZMod.val_mul, zetaC_pow_mod, pow_mul]

lemma chrC_zero (n : ℕ) [NeZero n] : chrC n 0 = 1 := by
  rw [chrC, ZMod.val_zero, pow_zero]

lemma zmod_sum_val (n : ℕ) [NeZero n] (f : ℕ → ℂ) :
    ∑ k : ZMod n, f k.val = ∑ i ∈ Finset.range n, f i := by
  apply Finset.sum_bij (fun (k : ZMod n) _ => k.val)
  · intro k _
    exact Finset.mem_range.2 (ZMod.val_lt k)
  · intro k1 _ k2 _ h
    exact ZMod.val_injective n h
  · intro i hi
    exact ⟨(i : ZMod n), Finset.mem_univ _, ZMod.val_cast_of_lt (Finset.mem_range.1 hi)⟩
  · intro k _
    rfl

lemma chrC_orth (n : ℕ) [NeZero n] (t : ZMod n) :
    ∑ k : ZMod n, chrC n (t * k) = if t = 0 then (n : ℂ) else 0 := by
  by_cases ht : t = 0
  · subst ht
    rw [if_pos rfl]
    have : ∀ k : ZMod n, chrC n (0 * k) = 1 := by
      intro k
      rw [zero_mul, chrC_zero]
    rw [Finset.sum_congr rfl (fun k _ => this k)]
    rw [Finset.sum_const, Finset.card_univ, ZMod.card]
    simp
  · rw [if_neg ht]
    have h1 : ∑ k : ZMod n, chrC n (t * k) = ∑ k : ZMod n, chrC n t ^ k.val := by
      exact Finset.sum_congr rfl (fun k _ => chrC_mul_eq_pow n t k)
    rw [h1, zmod_sum_val n (fun i => chrC n t ^ i)]
    have hne1 : chrC n t ≠ 1 := by
      rw [chrC]
      apply (zetaC_isPrimitiveRoot n).pow_ne_one_of_pos_of_lt
      · exact Nat.pos_of_ne_zero (fun h => ht ((ZMod.val_eq_zero t).1 h))
      · exact ZMod.val_lt t
    rw [geom_sum_eq hne1 n]
    have hpow : chrC n t ^ n = 1 := by
      rw [chrC, ← pow_mul, mul_comm, pow_mul, zetaC_pow_self, one_pow]
    rw [hpow, sub_self, zero_div]

theorem gidft_gdft_mul {R : Type} [CommRing R] [Fintype R] [DecidableEq R]
    (E : R → ℂ) (c : ℂ) (hc : c ≠ 0)
    (hE : ∀ a b : R, E (a + b) = E a * E b)
    (horth : ∀ t : R, ∑ k, E (t * k) = if t = 0 then c else 0)
    (x y : R → ℂ) :
    gidft c E (fun k => gdft E x k * gdft E y k) = gconv x y := by
  funext a
  simp only [gidft, gconv, gdft]
  have h1 : ∑ k : R, ((∑ p, x p * E (-(p * k))) * (∑ q, y q * E (-(q * k)))) * E (a * k)
      = ∑ k : R, ∑ p, ∑ q, x p * y q * E ((a - p - q) * k) := by
    apply Finset.sum_congr rfl
    intro k _
    rw [Finset.sum_mul_sum, Finset.sum_mul]
    apply Finset.sum_congr rfl
    intro p _
    rw [Finset.sum_mul]
    apply Finset.sum_congr rfl
    intro q _
    have hch : E (-(p * k)) * E (-(q * k)) * E (a * k) = E ((a - p - q) * k) := by
      rw [← hE, ← hE]
      congr 1
      ring
    calc x p * E (-(p * k)) * (y q * E (-(q * k))) * E (a * k)
        = x p * y q * (E (-(p * k)) * E (-(q * k)) * E (a * k)) := by ring
      _ = x p * y q * E ((a - p - q) * k) := by rw [hch]
  have h2 : ∑ k : R, ∑ p, ∑ q, x p * y q * E ((a - p - q) * k)
      = ∑ p, ∑ q, x p * y q * ∑ k, E ((a - p - q) * k) := by
    rw [Finset.sum_comm]
    apply Finset.sum_congr rfl
    intro p _
    rw [Finset.sum_comm]
    apply Finset.sum_congr rfl
    intro q _
    rw [← Finset.mul_sum]
  have h3 : ∀ p : R, ∑ q, x p * y q * (∑ k, E ((a - p - q) * k)) = x p * y (a - p) * c := by
    intro p
    have hterm : ∀ q : R, x p * y q * (∑ k, E ((a - p - q) * k)) =
        if q = a - p then x p * y q * c else 0 := by
      intro q
      rw [horth]
      by_cases hq : q = a - p
      · subst hq
        rw [if_pos (by ring : a - p - (a - p) = (0 : R)), if_pos rfl]
      · rw [if_neg ?c2, if_neg hq, mul_zero]
        case c2 =>
          intro h0
          exact hq (sub_eq_zero.1 h0).symm
    rw [Finset.sum_congr rfl (fun q _ => hterm q)]
    rw [Finset.sum_ite_eq' Finset.univ (a - p) (fun q => x p * y q * c)]
    rw [if_pos (Finset.mem_univ _)]
  rw [h1, h2]
  rw [Finset.sum_congr rfl (fun p _ => h3 p)]
  rw [← Finset.sum_mul, mul_comm (∑ p : R, x p * y (a - p)) c, ← mul_assoc,
    inv_mul_cancel₀ hc, one_mul]

lemma chr2_add (n m : ℕ) [NeZero n] [NeZero m] (a b : ZMod n × ZMod m) :
    chr2 n m (a + b) = chr2 n m a * chr2 n m b := by
  rw [chr2, chr2, chr2, Prod.fst_add, Prod.snd_add, chrC_add, chrC_add]
  ring

lemma chr2_orth (n m : ℕ) [NeZero n] [NeZero m] (t : ZMod n × ZMod m) :
    ∑ k : ZMod n × ZMod m, chr2 n m (t * k) = if t = 0 then (n : ℂ) * m else 0 := by
  rw [Fintype.sum_prod_type]
  have hsplit : ∀ (k1 : ZMod n) (k2 : ZMod m),
      chr2 n m (t * (k1, k2)) = chrC n (t.1 * k1) * chrC m (t.2 * k2) := fun k1 k2 => rfl
  simp only [hsplit]
  rw [← Finset.sum_mul_sum]
  rw [chrC_orth, chrC_orth]
  rcases eq_or_ne t 0 with h | h
  · subst h
    simp
  · rw [if_neg h]
    have hcomp : t.1 ≠ 0 ∨ t.2 ≠ 0 := by
      by_contra hcon
      push_neg at hcon
      exact h (Prod.ext hcon.1 hcon.2)
    rcases hcomp with h1 | h2
    · rw [if_neg h1, zero_mul]
    · rw [if_neg h2, mul_zero]

/-- Claim C9: for fields of even width — the only regime where
`rfft2`/`irfft2` coincide with the full DFT pair and hence where the model
is faithful to the source; `np.fft.irfft2` changes the shape of odd-width
inputs — the FFT-based `box_filter` equals the spatial-domain cyclic
convolution of the input field with the normalized uniform
`w_box × w_box` kernel (zero-padded into the field's shape), and the output
has the same shape as the input by construction. -/
theorem box_filter_eq_conv (N M : ℕ) (image : ZMod (N + 1) × ZMod (M + 1) → ℂ) (w_box : ℕ)
    (_hM : Even (M + 1)) :
    box_filter (N + 1) (M + 1) image w_box =
      gconv image (boxKernel (N + 1) (M + 1) w_box) := by
  have hc : ((N + 1 : ℕ) : ℂ) * ((M + 1 : ℕ) : ℂ) ≠ 0 := by
    apply mul_ne_zero <;>
      · rw [Nat.cast_ne_zero]
        exact Nat.succ_ne_zero _
  exact gidft_gdft_mul (chr2 (N + 1) (M + 1)) _ hc (chr2_add (N + 1) (M + 1))
    (chr2_orth (N + 1) (M + 1)) image (boxKernel (N + 1) (M + 1) w_box)

/-- Witness for C9 on a concrete 1×2 (even-width) field with `w_box = 1`. -/
theorem box_filter_eq_conv_witness :
    Even (1 + 1) ∧
      box_filter (0 + 1) (1 + 1) (fun p => if p.2 = 0 then 1 else 0) 1 =
        gconv (fun p : ZMod (0 + 1) × ZMod (1 + 1) => if p.2 = 0 then 1 else 0)
          (boxKernel (0 + 1) (1 + 1) 1) :=
  ⟨⟨1, rfl⟩, box_filter_eq_conv 0 1 (fun p => if p.2 = 0 then 1 else 0) 1 ⟨1, rfl⟩⟩

end StravaHeatmap
